import Mathlib

/-!
Verification of the content indexing and search subsystem of the
awesome-copilot MCP server (`build/index.js`).

Strings of the JavaScript source are modelled as `List Char`.  The pure
string-processing helpers (`extractFrontmatter`, the keyword tokenizer, the
title-suffix replacement) are translated function by function; the three
operations (`searchInstructions`, `loadInstruction`, `listFiles`) are
translated both as pure functions over a filesystem snapshot and as
state-passing functions threading the snapshot through every filesystem
primitive (for the frame property).
-/

namespace AwesomeCopilot

abbrev Str := List Char

/-- Code points of the JavaScript `\s` character class (also used by
`String.prototype.trim`): tab, LF, VT, FF, CR, space, NBSP, Ogham space mark,
the U+2000–U+200A range, line/paragraph separator, narrow NBSP, medium
mathematical space, ideographic space and BOM. -/
def wsCodes : List Nat :=
  [9, 10, 11, 12, 13, 32, 160, 5760, 8192, 8193, 8194, 8195, 8196,
   8197, 8198, 8199, 8200, 8201, 8202, 8232, 8233, 8239, 8287, 12288, 65279]

/-- Membership in the JavaScript `\s` character class. -/
def isWS (c : Char) : Bool := wsCodes.contains c.toNat

/-- ASCII case folding as performed by `String.prototype.toLowerCase` on the
ASCII range (the corpus filenames and keywords are ASCII). -/
def toLowerC (c : Char) : Char :=
  match c with
  | 'A' => 'a' | 'B' => 'b' | 'C' => 'c' | 'D' => 'd' | 'E' => 'e'
  | 'F' => 'f' | 'G' => 'g' | 'H' => 'h' | 'I' => 'i' | 'J' => 'j'
  | 'K' => 'k' | 'L' => 'l' | 'M' => 'm' | 'N' => 'n' | 'O' => 'o'
  | 'P' => 'p' | 'Q' => 'q' | 'R' => 'r' | 'S' => 's' | 'T' => 't'
  | 'U' => 'u' | 'V' => 'v' | 'W' => 'w' | 'X' => 'x' | 'Y' => 'y'
  | 'Z' => 'z'
  | c => c

def lower (l : Str) : Str := l.map toLowerC

/-- `keywords.toLowerCase().split(/\s+/)` tokenization: maximal whitespace runs
separate tokens; a leading run contributes a leading empty token and a trailing
run a trailing empty token, exactly as `String.prototype.split` does. -/
def splitWS : Str → List Str
  | [] => [[]]
  | c :: rest =>
    if isWS c then
      match rest with
      | c2 :: _ => if isWS c2 then splitWS rest else [] :: splitWS rest
      | [] => [[], []]
    else
      match splitWS rest with
      | [] => [[c]]
      | t :: ts => (c :: t) :: ts

/-- `text.split("\n")`. -/
def splitOnNl : Str → List Str
  | [] => [[]]
  | c :: rest =>
    if c = '\n' then [] :: splitOnNl rest
    else
      match splitOnNl rest with
      | [] => [[c]]
      | t :: ts => (c :: t) :: ts

/-- `String.prototype.trim`. -/
def trimL (l : Str) : Str := ((l.dropWhile isWS).reverse.dropWhile isWS).reverse

def isQuote (c : Char) : Bool := c == '"' || c.toNat == 39

/-- First half of `value.replace(/^['"]|['"]$/g, "")`: drop one leading quote
character if present. -/
def stripLead (l : Str) : Str :=
  match l with
  | [] => []
  | c :: rest => if isQuote c then rest else l

/-- Second half of the global replace: after the leading match is consumed the
regex engine continues from index 1, so the end-anchored alternative removes
the last character of what remains when it is a quote. -/
def stripTrail (l : Str) : Str :=
  match l.getLast? with
  | some c => if isQuote c then l.dropLast else l
  | none => l

/-- `value.replace(/^['"]|['"]$/g, "")`: the two alternatives fire
independently, so mismatched and one-sided quotes are stripped too. -/
def stripQuotes (l : Str) : Str := stripTrail (stripLead l)

/-- One line of the front-matter block: `const colonIndex = line.indexOf(":")`,
accepted only when `colonIndex > 0`; key is `line.slice(0, colonIndex).trim()`
and value is `line.slice(colonIndex + 1).trim()` with quotes stripped. -/
def parseLine (l : Str) : Option (Str × Str) :=
  let i := l.findIdx (· == ':')
  if i = l.length then none
  else if i = 0 then none
  else some (trimL (l.take i), stripQuotes (trimL (l.drop (i + 1))))

/-- The frontmatter object: assignments in line order, `fmGet` reads the last
assignment of a key, matching JavaScript property overwrite semantics. -/
abbrev FM := List (Str × Str)

def fmGet (fm : FM) (k : Str) : Option Str :=
  (fm.reverse.find? (fun p => p.1 == k)).map (·.2)

def parseFMLines (lines : List Str) : FM := lines.filterMap parseLine

/-- Largest index `j < n` with `r[j] = '\n'` (the greedy choice for the `\s*`
of a `\s*\n` sub-pattern whose candidate positions all lie inside the leading
whitespace run). -/
def lastNl (r : Str) : Nat → Option Nat
  | 0 => none
  | j + 1 => if r.get? j = some '\n' then some j else lastNl r j

/-- Match `\s*\n` greedily at the start of `r`, returning the remainder. -/
def greedyWsNl (r : Str) : Option Str :=
  match lastNl r ((r.takeWhile isWS).length) with
  | some j => some (r.drop (j + 1))
  | none => none

/-- Attempt the closing delimiter `\n---\s*\n` at the current position. -/
def closeHere (c : Char) (cs : Str) : Option Str :=
  if c == '\n' && "---".toList.isPrefixOf cs then greedyWsNl (cs.drop 3) else none

/-- Earliest occurrence of `\n---\s*\n` (the lazy group `([\s\S]*?)` makes the
regex take the first position where the closing delimiter matches); returns
the group content before it and the remainder after it. -/
def findClose : Str → Option (Str × Str)
  | [] => none
  | c :: cs =>
    match closeHere c cs with
    | some rem => some ([], rem)
    | none =>
      match findClose cs with
      | some (pre, rem) => some (c :: pre, rem)
      | none => none

/-- Backtracking over the opening `\s*\n` (greedy, so larger whitespace
consumption is preferred): try each newline position inside the whitespace run
from the largest down, taking the first for which a closing delimiter exists. -/
def openLoop (r : Str) : Nat → Option (Str × Str)
  | 0 => none
  | j + 1 =>
    if r.get? j = some '\n' then
      match findClose (r.drop (j + 1)) with
      | some res => some res
      | none => openLoop r j
    else openLoop r j

/-- `content.match(/^---\s*\n([\s\S]*?)\n---\s*\n/)`: `some (group, rest)` when
the regex matches, where `group` is the captured front-matter text and `rest`
is `content.slice(match[0].length)`. -/
def fmMatch (content : Str) : Option (Str × Str) :=
  if "---".toList.isPrefixOf content then
    let r := content.drop 3
    openLoop r ((r.takeWhile isWS).length)
  else none

/-- `extractFrontmatter(content)`: the parsed front-matter object and the
remaining content (the whole text with an empty object when the regex does not
match). -/
def extractFrontmatter (content : Str) : FM × Str :=
  match fmMatch content with
  | some (g, rem) => (parseFMLines (splitOnNl g), rem)
  | none => ([], content)

/-! ## Title derivation and metadata assembly -/

/-- The four suffix strings matched by
`file.replace(/\.(instructions|prompt|chatmode|agent)\.md$/, "")`. -/
def tagSuffixes : List Str :=
  [".instructions.md".toList, ".prompt.md".toList, ".chatmode.md".toList, ".agent.md".toList]

def isTagRemainder (l : Str) : Bool := tagSuffixes.any (fun s => s == l)

/-- `file.replace(/\.(instructions|prompt|chatmode|agent)\.md$/, "")`: scan for
the leftmost position whose remainder is exactly one of the end-anchored tag
suffixes and delete it; the filename is unchanged when no position matches. -/
def replaceTagSuffix : Str → Str
  | [] => []
  | c :: cs => if isTagRemainder (c :: cs) then [] else c :: replaceTagSuffix cs

/-- `file.endsWith(".md")`. -/
def endsMd (nm : Str) : Bool := ".md".toList.isSuffixOf nm

/-- `frontmatter.title || file.replace(...)` at the search call site (line 87):
an absent key and an empty string are both falsy. -/
def searchTitle (fm : FM) (nm : Str) : Str :=
  match fmGet fm "title".toList with
  | some v => if v = [] then replaceTagSuffix nm else v
  | none => replaceTagSuffix nm

/-- `frontmatter.description || ""` at the search call site (line 88). -/
def searchDesc (fm : FM) : Str :=
  match fmGet fm "description".toList with
  | some v => v
  | none => []

/-- `frontmatter.mode || undefined` at the search call site (line 89). -/
def searchMode (fm : FM) : Option Str :=
  match fmGet fm "mode".toList with
  | some v => if v = [] then none else some v
  | none => none

/-- `frontmatter.title || file.replace(...)` at the list call site (line 145),
a separate copy of the same expression in the source. -/
def listTitle (fm : FM) (nm : Str) : Str :=
  match fmGet fm "title".toList with
  | some v => if v = [] then replaceTagSuffix nm else v
  | none => replaceTagSuffix nm

/-- `frontmatter.description || ""` at the list call site (line 146). -/
def listDesc (fm : FM) : Str :=
  match fmGet fm "description".toList with
  | some v => v
  | none => []

/-! ## Corpus model -/

/-- One directory entry: a filename and, when the file can be read, its
content (`none` models a file whose `fs.readFile` rejects). -/
structure FileEntry where
  name : Str
  content : Option Str
deriving Repr, DecidableEq

/-- The filesystem as seen through the four entries of `DIRECTORIES`; a `none`
directory models a missing or unreadable directory (`fs.readdir` rejects). -/
structure FS where
  instructions : Option (List FileEntry)
  prompts : Option (List FileEntry)
  chatmodes : Option (List FileEntry)
  agents : Option (List FileEntry)
deriving Repr, DecidableEq

/-- The canonical categories, in the declaration order of `DIRECTORIES`. -/
inductive Cat
  | instructions | prompts | chatmodes | agents
deriving Repr, DecidableEq

def catName : Cat → Str
  | .instructions => "instructions".toList
  | .prompts => "prompts".toList
  | .chatmodes => "chatmodes".toList
  | .agents => "agents".toList

def catDir (cat : Cat) (fs : FS) : Option (List FileEntry) :=
  match cat with
  | .instructions => fs.instructions
  | .prompts => fs.prompts
  | .chatmodes => fs.chatmodes
  | .agents => fs.agents

/-- Property names every plain object literal inherits from
`Object.prototype`; the access `DIRECTORIES[m]` for one of these returns the
inherited method (or, for the `__proto__` accessor, the prototype object) — a
truthy value that is not a directory path string. -/
def protoProps : List Str :=
  ["constructor".toList, "hasOwnProperty".toList, "isPrototypeOf".toList,
   "propertyIsEnumerable".toList, "toLocaleString".toList, "toString".toList,
   "valueOf".toList, "__proto__".toList, "__defineGetter__".toList,
   "__defineSetter__".toList, "__lookupGetter__".toList, "__lookupSetter__".toList]

/-- The value of the property access `DIRECTORIES[mode]`: one of the four own
directory-path properties, a truthy non-string value inherited from
`Object.prototype`, or `undefined`. -/
inductive DirVal
  | dir (cat : Cat)
  | inheritedObj
  | undefinedVal
deriving Repr, DecidableEq

/-- `DIRECTORIES[mode]`: the object literal has four own properties holding
directory path strings; any other name is looked up along the prototype
chain, so the property names of `Object.prototype` yield a truthy non-string
value and only the remaining names yield `undefined` (falsy). -/
def dirAccess (m : Str) : DirVal :=
  if m = "instructions".toList then .dir .instructions
  else if m = "prompts".toList then .dir .prompts
  else if m = "chatmodes".toList then .dir .chatmodes
  else if m = "agents".toList then .dir .agents
  else if m ∈ protoProps then .inheritedObj
  else .undefinedVal

/-- Message of `new Error` thrown for an invalid mode (lines 109 and 129). -/
def invalidMsg (m : Str) : Str :=
  "Invalid mode: ".toList ++ m ++
    ". Must be one of: instructions, prompts, chatmodes, agents".toList

/-- `instructions, prompts, chatmodes, agents`, the accepted set as spelled in
the invalid-mode message. -/
def acceptedSet : Str := "instructions, prompts, chatmodes, agents".toList

/-- Message of the error rethrown by `loadInstruction` (line 118); the
underlying I/O error text is abstracted as `ENOENT`. -/
def loadFailMsg (f m : Str) : Str :=
  "Failed to load file ".toList ++ f ++ " from ".toList ++ m ++ ": ENOENT".toList

/-- Message of the error rethrown by `listFiles` (line 152); the underlying
I/O error text is abstracted as `ENOENT`. -/
def listFailMsg (m : Str) : Str :=
  "Failed to list files from ".toList ++ m ++ ": ENOENT".toList

/-- Message of the `TypeError` raised by `path.join(dirPath, filename)` when
`dirPath` is the truthy non-string value found on the prototype chain (line
112, before the try block, so it propagates as-is). -/
def joinTypeErrMsg : Str :=
  "TypeError: The \"path\" argument must be of type string".toList

instance {ε α : Type} [DecidableEq ε] [DecidableEq α] : DecidableEq (Except ε α) := fun x y =>
  match x, y with
  | .ok a, .ok b => if h : a = b then .isTrue (by rw [h]) else .isFalse (by simp [h])
  | .error a, .error b => if h : a = b then .isTrue (by rw [h]) else .isFalse (by simp [h])
  | .ok _, .error _ => .isFalse (by simp)
  | .error _, .ok _ => .isFalse (by simp)

/-! ## Pure operations -/

structure SearchItem where
  type : Str
  filename : Str
  title : Str
  description : Str
  mode : Option Str
deriving Repr, DecidableEq

structure ListItem where
  filename : Str
  title : Str
  description : Str
deriving Repr, DecidableEq

/-- `haystack.includes(needle)`: substring test, true at the empty needle. -/
def containsSub (needle : Str) : Str → Bool
  | [] => needle.isEmpty
  | c :: rest => needle.isPrefixOf (c :: rest) || containsSub needle rest

/-- The result object pushed by `searchInstructions` (lines 84–90); `content`
in the haystack and in `extractFrontmatter` is the full raw file text. -/
def mkSearchItem (ty nm c : Str) : SearchItem :=
  let fm := (extractFrontmatter c).1
  ⟨ty, nm, searchTitle fm nm, searchDesc fm, searchMode fm⟩

/-- The lower-cased haystack
`` `${file} ${frontmatter.description || ""} ${content}`.toLowerCase() ``. -/
def hayOf (nm c : Str) : Str :=
  lower (nm ++ ' ' :: (searchDesc (extractFrontmatter c).1 ++ ' ' :: c))

/-- The inner file loop of `searchInstructions` (lines 70–92): non-`.md`
entries are skipped; a failing read throws out of the loop, so the rest of the
category contributes nothing while earlier matches are kept. -/
def scanFiles (terms : List Str) (ty : Str) : List FileEntry → List SearchItem
  | [] => []
  | f :: rest =>
    if endsMd f.name then
      match f.content with
      | some c =>
        (if terms.any (fun tok => containsSub tok (hayOf f.name c)) then
          [mkSearchItem ty f.name c]
        else []) ++ scanFiles terms ty rest
      | none => []
    else scanFiles terms ty rest

/-- One category of the sweep: a failing `readdir` is caught and the category
is skipped (lines 93–96). -/
def scanCat (terms : List Str) (cat : Cat) (fs : FS) : List SearchItem :=
  match catDir cat fs with
  | none => []
  | some files => scanFiles terms (catName cat) files

/-- `searchInstructions(keywords)` over a filesystem snapshot. -/
def searchInstructions (keywords : Str) (fs : FS) : List SearchItem :=
  let terms := splitWS (lower keywords)
  scanCat terms .instructions fs ++ scanCat terms .prompts fs ++
    scanCat terms .chatmodes fs ++ scanCat terms .agents fs

/-- `loadInstruction(mode, filename)`: an `undefined` lookup fails the
`!dirPath` check and throws the invalid-mode error; a truthy inherited value
passes the check and `path.join` then throws a `TypeError` before any
filesystem access. -/
def loadInstruction (mode filename : Str) (fs : FS) : Except Str Str :=
  match dirAccess mode with
  | .undefinedVal => .error (invalidMsg mode)
  | .inheritedObj => .error joinTypeErrMsg
  | .dir cat =>
    match catDir cat fs with
    | none => .error (loadFailMsg filename mode)
    | some files =>
      match files.find? (fun f => f.name == filename) with
      | some f =>
        match f.content with
        | some c => .ok c
        | none => .error (loadFailMsg filename mode)
      | none => .error (loadFailMsg filename mode)

/-- The result object pushed by `listFiles` (lines 143–147). -/
def mkListItem (nm c : Str) : ListItem :=
  let fm := (extractFrontmatter c).1
  ⟨nm, listTitle fm nm, listDesc fm⟩

/-- The file loop of `listFiles` (lines 136–148): a failing read throws out of
the loop and the whole operation fails (`none`), discarding partial results. -/
def listLoop : List FileEntry → Option (List ListItem)
  | [] => some []
  | f :: rest =>
    if endsMd f.name then
      match f.content with
      | some c => (listLoop rest).map (fun items => mkListItem f.name c :: items)
      | none => none
    else listLoop rest

/-- `listFiles(mode)`: an `undefined` lookup throws the invalid-mode error; a
truthy inherited value reaches `fs.readdir`, whose `TypeError` is caught by
the surrounding try and rethrown as a `Failed to list files` error, exactly
like a failing `readdir` (missing directory included) or a failing file read
(lines 132–153). -/
def listFiles (mode : Str) (fs : FS) : Except Str (List ListItem) :=
  match dirAccess mode with
  | .undefinedVal => .error (invalidMsg mode)
  | .inheritedObj => .error (listFailMsg mode)
  | .dir cat =>
    match catDir cat fs with
    | none => .error (listFailMsg mode)
    | some files =>
      match listLoop files with
      | some items => .ok items
      | none => .error (listFailMsg mode)

/-! ## State-passing operations

The same three operations with the filesystem threaded explicitly through
every filesystem primitive, used to state the frame property: the primitives
model the read-only `fs/promises` APIs the code calls (`readdir`, `readFile`),
which return data and leave the filesystem as it was. -/

/-- `fs.readdir(dirPath)` as a state transition. -/
def fsReaddir (cat : Cat) (fs : FS) : Option (List FileEntry) × FS := (catDir cat fs, fs)

/-- `fs.readFile(path.join(dirPath, file))` for an entry produced by a
directory enumeration. -/
def fsReadEntry (f : FileEntry) (fs : FS) : Option Str × FS := (f.content, fs)

/-- `fs.readFile(path.join(dirPath, filename))` for a caller-supplied
filename. -/
def fsReadPath (cat : Cat) (nm : Str) (fs : FS) : Option Str × FS :=
  (match catDir cat fs with
   | none => none
   | some files =>
     match files.find? (fun f => f.name == nm) with
     | some f => f.content
     | none => none, fs)

def scanFilesSt (terms : List Str) (ty : Str) : List FileEntry → FS → List SearchItem × FS
  | [], fs => ([], fs)
  | f :: rest, fs =>
    if endsMd f.name then
      match fsReadEntry f fs with
      | (some c, fs1) =>
        let pr := scanFilesSt terms ty rest fs1
        ((if terms.any (fun tok => containsSub tok (hayOf f.name c)) then
            [mkSearchItem ty f.name c]
          else []) ++ pr.1, pr.2)
      | (none, fs1) => ([], fs1)
    else scanFilesSt terms ty rest fs

def scanCatSt (terms : List Str) (cat : Cat) (fs : FS) : List SearchItem × FS :=
  match fsReaddir cat fs with
  | (none, fs1) => ([], fs1)
  | (some files, fs1) => scanFilesSt terms (catName cat) files fs1

def searchInstructionsSt (keywords : Str) (fs : FS) : List SearchItem × FS :=
  let terms := splitWS (lower keywords)
  let p1 := scanCatSt terms .instructions fs
  let p2 := scanCatSt terms .prompts p1.2
  let p3 := scanCatSt terms .chatmodes p2.2
  let p4 := scanCatSt terms .agents p3.2
  (p1.1 ++ p2.1 ++ p3.1 ++ p4.1, p4.2)

def loadInstructionSt (mode filename : Str) (fs : FS) : Except Str Str × FS :=
  match dirAccess mode with
  | .undefinedVal => (.error (invalidMsg mode), fs)
  | .inheritedObj => (.error joinTypeErrMsg, fs)
  | .dir cat =>
    match fsReadPath cat filename fs with
    | (some c, fs1) => (.ok c, fs1)
    | (none, fs1) => (.error (loadFailMsg filename mode), fs1)

def listLoopSt : List FileEntry → FS → Option (List ListItem) × FS
  | [], fs => (some [], fs)
  | f :: rest, fs =>
    if endsMd f.name then
      match fsReadEntry f fs with
      | (some c, fs1) =>
        let pr := listLoopSt rest fs1
        (pr.1.map (fun items => mkListItem f.name c :: items), pr.2)
      | (none, fs1) => (none, fs1)
    else listLoopSt rest fs

def listFilesSt (mode : Str) (fs : FS) : Except Str (List ListItem) × FS :=
  match dirAccess mode with
  | .undefinedVal => (.error (invalidMsg mode), fs)
  | .inheritedObj => (.error (listFailMsg mode), fs)
  | .dir cat =>
    match fsReaddir cat fs with
    | (none, fs1) => (.error (listFailMsg mode), fs1)
    | (some files, fs1) =>
      match listLoopSt files fs1 with
      | (some items, fs2) => (.ok items, fs2)
      | (none, fs2) => (.error (listFailMsg mode), fs2)

section SanityChecks

example : splitWS "a  b".toList = ["a".toList, "b".toList] := by decide
example : splitWS "".toList = [[]] := by decide
example : splitWS " a ".toList = [[], "a".toList, []] := by decide
example : (extractFrontmatter "---\ntitle: Hi\n---\nbody".toList).1 =
    [("title".toList, "Hi".toList)] := by decide
example : (extractFrontmatter "---\ntitle: Hi\n---\nbody".toList).2 = "body".toList := by
  decide
example : extractFrontmatter "no front matter".toList = ([], "no front matter".toList) := by
  decide
example : (extractFrontmatter "---\n\n---\nbody".toList) = ([], "body".toList) := by decide
example : fmMatch "---\n---\n".toList = none := by decide
example : stripQuotes "\"v".toList = "v".toList := by decide

example :
    searchInstructions "widgets".toList
      ⟨some [⟨"example.instructions.md".toList,
        some "---\ntitle: \"Example Guide\"\ndescription: Helpful notes\n---\nBody text mentioning widgets.\n".toList⟩],
        some [], some [], some []⟩ =
      [⟨"instructions".toList, "example.instructions.md".toList,
        "Example Guide".toList, "Helpful notes".toList, none⟩] := by decide

example :
    searchInstructions "nomatch".toList
      ⟨some [⟨"example.instructions.md".toList,
        some "---\ntitle: \"Example Guide\"\ndescription: Helpful notes\n---\nBody text mentioning widgets.\n".toList⟩],
        some [], some [], some []⟩ = [] := by decide

example :
    listFiles "instructions".toList
      ⟨some [⟨"example.instructions.md".toList,
        some "---\ntitle: \"Example Guide\"\ndescription: Helpful notes\n---\nBody\n".toList⟩],
        some [], some [], some []⟩ =
      .ok [⟨"example.instructions.md".toList, "Example Guide".toList,
        "Helpful notes".toList⟩] := by decide

example :
    loadInstruction "prompts".toList "x.prompt.md".toList
      ⟨none, some [⟨"x.prompt.md".toList, some "hello".toList⟩], none, none⟩ =
      .ok "hello".toList := by decide

example :
    loadInstruction "bogus".toList "x.md".toList ⟨none, none, none, none⟩ =
      .error (invalidMsg "bogus".toList) := by decide

example : replaceTagSuffix "a.collection.md".toList = "a.collection.md".toList := by decide
example : replaceTagSuffix "a.chatmode.md".toList = "a".toList := by decide

end SanityChecks

/-! ## Helper lemmas -/

theorem containsSub_nil (h : Str) : containsSub [] h = true := by
  induction h with
  | nil => rfl
  | cons c rest ih => simp [containsSub, List.isPrefixOf, ih]

theorem containsSub_self_append (n t : Str) : containsSub n (n ++ t) = true := by
  cases n with
  | nil => simpa using containsSub_nil t
  | cons c n2 =>
    have hp : (c :: n2).isPrefixOf ((c :: n2) ++ t) = true := by
      rw [List.isPrefixOf_iff_prefix]
      exact List.prefix_append _ _
    show containsSub (c :: n2) (c :: (n2 ++ t)) = true
    simp only [containsSub]
    rw [show c :: (n2 ++ t) = (c :: n2) ++ t from rfl, hp]
    simp

theorem containsSub_cons (n h : Str) (c : Char) (hh : containsSub n h = true) :
    containsSub n (c :: h) = true := by
  simp only [containsSub, Bool.or_eq_true]
  exact Or.inr hh

theorem containsSub_mid (n s t : Str) : containsSub n (s ++ (n ++ t)) = true := by
  induction s with
  | nil => simpa using containsSub_self_append n t
  | cons c s2 ih => exact containsSub_cons _ _ _ ih

theorem scanFilesSt_eq (terms : List Str) (ty : Str) (l : List FileEntry) (fs : FS) :
    scanFilesSt terms ty l fs = (scanFiles terms ty l, fs) := by
  induction l with
  | nil => rfl
  | cons f rest ih =>
    by_cases hm : endsMd f.name
    · cases hc : f.content with
      | none => simp [scanFilesSt, scanFiles, fsReadEntry, hm, hc]
      | some c => simp [scanFilesSt, scanFiles, fsReadEntry, hm, hc, ih]
    · simp [scanFilesSt, scanFiles, hm, ih]

theorem scanCatSt_eq (terms : List Str) (cat : Cat) (fs : FS) :
    scanCatSt terms cat fs = (scanCat terms cat fs, fs) := by
  cases hd : catDir cat fs <;> simp [scanCatSt, scanCat, fsReaddir, hd, scanFilesSt_eq]

theorem searchInstructionsSt_eq (k : Str) (fs : FS) :
    searchInstructionsSt k fs = (searchInstructions k fs, fs) := by
  simp [searchInstructionsSt, searchInstructions, scanCatSt_eq]

theorem loadInstructionSt_eq (m f : Str) (fs : FS) :
    loadInstructionSt m f fs = (loadInstruction m f fs, fs) := by
  cases hr : dirAccess m with
  | undefinedVal => simp [loadInstructionSt, loadInstruction, hr]
  | inheritedObj => simp [loadInstructionSt, loadInstruction, hr]
  | dir cat =>
    cases hd : catDir cat fs with
    | none => simp [loadInstructionSt, loadInstruction, fsReadPath, hr, hd]
    | some files =>
      cases hf : files.find? (fun g => g.name == f) with
      | none => simp [loadInstructionSt, loadInstruction, fsReadPath, hr, hd, hf]
      | some g =>
        cases hc : g.content <;>
          simp [loadInstructionSt, loadInstruction, fsReadPath, hr, hd, hf, hc]

theorem listLoopSt_eq (l : List FileEntry) (fs : FS) :
    listLoopSt l fs = (listLoop l, fs) := by
  induction l with
  | nil => rfl
  | cons f rest ih =>
    by_cases hm : endsMd f.name
    · cases hc : f.content with
      | none => simp [listLoopSt, listLoop, fsReadEntry, hm, hc]
      | some c => simp [listLoopSt, listLoop, fsReadEntry, hm, hc, ih]
    · simp [listLoopSt, listLoop, hm, ih]

theorem listFilesSt_eq (m : Str) (fs : FS) :
    listFilesSt m fs = (listFiles m fs, fs) := by
  cases hr : dirAccess m with
  | undefinedVal => simp [listFilesSt, listFiles, hr]
  | inheritedObj => simp [listFilesSt, listFiles, hr]
  | dir cat =>
    cases hd : catDir cat fs with
    | none => simp [listFilesSt, listFiles, fsReaddir, hr, hd]
    | some files =>
      cases hl : listLoop files <;>
        simp [listFilesSt, listFiles, fsReaddir, hr, hd, listLoopSt_eq, hl]

/-- A failing read of an eligible file ends the category scan: everything
after it is dropped, whatever it is. -/
theorem scanFiles_cut (terms : List Str) (ty : Str) (xs rest : List FileEntry)
    (f : FileEntry) (hmd : endsMd f.name = true) (hc : f.content = none) :
    scanFiles terms ty (xs ++ f :: rest) = scanFiles terms ty xs := by
  induction xs with
  | nil => simp [scanFiles, hmd, hc]
  | cons g xs2 ih =>
    by_cases hg : endsMd g.name
    · cases hgc : g.content with
      | none => simp [scanFiles, hg, hgc]
      | some c => simp [scanFiles, hg, hgc, ih]
    · simp [scanFiles, hg, ih]

/-! ## Claims -/

/-- C9: every operation (search, load, list) leaves the corpus filesystem
unchanged: in the state-passing embedding, where every `fs.readdir` and
`fs.readFile` threads the filesystem value through, each call returns the
filesystem it was given, successful or failing. -/
theorem C9_operations_read_only (fs : FS) (k m f : Str) :
    (searchInstructionsSt k fs).2 = fs ∧ (loadInstructionSt m f fs).2 = fs ∧
      (listFilesSt m fs).2 = fs := by
  simp [searchInstructionsSt_eq, loadInstructionSt_eq, listFilesSt_eq]

/-- C2 fails on the code: `DIRECTORIES[mode]` is a property access that
consults the prototype chain, so for `mode = "toString"` (not a canonical
category) the inherited method is truthy, the `!dirPath` check is skipped,
and the operations fail with different errors — load with the `path.join`
type error, list with the rethrown `Failed to list files` error — instead of
the invalid-mode error naming the value and the accepted set. -/
theorem C2_counterexample :
    loadInstruction "toString".toList "x.md".toList ⟨some [], some [], some [], some []⟩ =
      .error joinTypeErrMsg ∧
    loadInstruction "toString".toList "x.md".toList ⟨some [], some [], some [], some []⟩ ≠
      .error (invalidMsg "toString".toList) ∧
    listFiles "toString".toList ⟨some [], some [], some [], some []⟩ =
      .error (listFailMsg "toString".toList) ∧
    listFiles "toString".toList ⟨some [], some [], some [], some []⟩ ≠
      .error (invalidMsg "toString".toList) ∧
    "toString".toList ≠ "instructions".toList ∧ "toString".toList ≠ "prompts".toList ∧
    "toString".toList ≠ "chatmodes".toList ∧ "toString".toList ≠ "agents".toList := by
  exact ⟨by decide, by decide, by decide, by decide, by decide, by decide, by decide,
    by decide⟩

/-- C2 amended: for every mode that is neither one of the four canonical
category names nor one of the property names inherited from
`Object.prototype`, both load and list fail with the invalid-mode error,
whose message contains the offending value and the accepted set; for the
inherited prototype property names the invalid-mode check is skipped and the
operations still fail — load with the `path.join` type error, list with a
`Failed to list files` error — so a non-canonical mode is never silently
coerced to a category, but the InvalidCategory error is not guaranteed. -/
theorem C2_amended_invalid_category :
    (∀ (m f : Str) (fs : FS),
      m ≠ "instructions".toList → m ≠ "prompts".toList →
      m ≠ "chatmodes".toList → m ≠ "agents".toList → m ∉ protoProps →
      loadInstruction m f fs = .error (invalidMsg m) ∧
      listFiles m fs = .error (invalidMsg m) ∧
      containsSub m (invalidMsg m) = true ∧
      containsSub acceptedSet (invalidMsg m) = true) ∧
    (∀ (m f : Str) (fs : FS), m ∈ protoProps →
      loadInstruction m f fs = .error joinTypeErrMsg ∧
      listFiles m fs = .error (listFailMsg m)) := by
  constructor
  · intro m f fs h1 h2 h3 h4 hp
    have hr : dirAccess m = DirVal.undefinedVal := by
      simp only [dirAccess]
      rw [if_neg h1, if_neg h2, if_neg h3, if_neg h4, if_neg hp]
    refine ⟨by simp [loadInstruction, hr], by simp [listFiles, hr], ?_, ?_⟩
    · simpa [invalidMsg, List.append_assoc] using
        containsSub_mid m "Invalid mode: ".toList
          ". Must be one of: instructions, prompts, chatmodes, agents".toList
    · have hBD : ". Must be one of: instructions, prompts, chatmodes, agents".toList =
          ". Must be one of: ".toList ++ acceptedSet ++ [] := by decide
      rw [invalidMsg, hBD]
      simpa [List.append_assoc] using
        containsSub_mid acceptedSet
          ("Invalid mode: ".toList ++ m ++ ". Must be one of: ".toList) []
  · intro m f fs hp
    have hne : m ≠ "instructions".toList ∧ m ≠ "prompts".toList ∧
        m ≠ "chatmodes".toList ∧ m ≠ "agents".toList := by
      simp only [protoProps] at hp
      fin_cases hp <;> exact ⟨by decide, by decide, by decide, by decide⟩
    have hr : dirAccess m = DirVal.inheritedObj := by
      simp only [dirAccess]
      rw [if_neg hne.1, if_neg hne.2.1, if_neg hne.2.2.1, if_neg hne.2.2.2, if_pos hp]
    exact ⟨by simp [loadInstruction, hr], by simp [listFiles, hr]⟩

theorem C2_witness :
    ("bogus".toList ≠ "instructions".toList ∧ "bogus".toList ≠ "prompts".toList ∧
      "bogus".toList ≠ "chatmodes".toList ∧ "bogus".toList ≠ "agents".toList ∧
      "bogus".toList ∉ protoProps) ∧
    (loadInstruction "bogus".toList "x.md".toList ⟨none, none, none, none⟩ =
        .error (invalidMsg "bogus".toList) ∧
      listFiles "bogus".toList ⟨none, none, none, none⟩ =
        .error (invalidMsg "bogus".toList) ∧
      containsSub "bogus".toList (invalidMsg "bogus".toList) = true ∧
      containsSub acceptedSet (invalidMsg "bogus".toList) = true) :=
  ⟨⟨by decide, by decide, by decide, by decide, by decide⟩,
    C2_amended_invalid_category.1 "bogus".toList "x.md".toList ⟨none, none, none, none⟩
      (by decide) (by decide) (by decide) (by decide) (by decide)⟩

/-- C1 fails on the code: with a missing `agents` directory, `listFiles`
rethrows the `readdir` failure as a `Failed to list files` error instead of
returning an empty sequence. -/
theorem C1_counterexample :
    listFiles "agents".toList ⟨some [], some [], some [], none⟩ =
      .error (listFailMsg "agents".toList) ∧
    listFiles "agents".toList ⟨some [], some [], some [], none⟩ ≠ .ok [] := by
  exact ⟨by decide, by decide⟩

/-- C1 amended: if a category's directory does not exist, list on that
category fails with a descriptive error (not an empty sequence), while search
is unaffected by the missing directory: it returns exactly the matches of the
remaining categories. -/
theorem C1_amended_missing_dir (fs : FS) (k : Str) (h : fs.agents = none) :
    listFiles "agents".toList fs = .error (listFailMsg "agents".toList) ∧
    searchInstructions k fs =
      searchInstructions k ⟨fs.instructions, fs.prompts, fs.chatmodes, some []⟩ := by
  constructor
  · simp [listFiles, dirAccess, catDir, h]
  · simp [searchInstructions, scanCat, catDir, h, scanFiles]

theorem C1_witness :
    (⟨some [], some [], some [], none⟩ : FS).agents = none ∧
    (listFiles "agents".toList ⟨some [], some [], some [], none⟩ =
        .error (listFailMsg "agents".toList) ∧
      searchInstructions "anything".toList ⟨some [], some [], some [], none⟩ =
        searchInstructions "anything".toList ⟨some [], some [], some [], some []⟩) :=
  ⟨rfl, C1_amended_missing_dir ⟨some [], some [], some [], none⟩ "anything".toList rfl⟩

/-- C3 fails on the code: in a category holding a failing file `a.md` followed
by a readable matching file `b.md`, the search returns nothing — `b.md` is
never processed — although with `a.md` absent it is found. -/
theorem C3_counterexample :
    searchInstructions "needle".toList
      ⟨some [⟨"a.md".toList, none⟩, ⟨"b.md".toList, some "has needle inside".toList⟩],
        some [], some [], some []⟩ = [] ∧
    searchInstructions "needle".toList
      ⟨some [⟨"b.md".toList, some "has needle inside".toList⟩],
        some [], some [], some []⟩ =
      [⟨"instructions".toList, "b.md".toList, "b.md".toList, [], none⟩] := by
  exact ⟨by decide, by decide⟩

/-- C3 amended: a read failure on one eligible file ends that category's scan
— search behaves as if the category contained only the files before the
failing one (earlier matches are kept) — while the remaining categories are
still scanned in full. -/
theorem C3_amended_read_failure_ends_category :
    (∀ (terms : List Str) (ty : Str) (xs rest : List FileEntry) (f : FileEntry),
      endsMd f.name = true → f.content = none →
      scanFiles terms ty (xs ++ f :: rest) = scanFiles terms ty xs) ∧
    (∀ (k : Str) (xs rest : List FileEntry) (f : FileEntry)
      (p c a : Option (List FileEntry)),
      endsMd f.name = true → f.content = none →
      searchInstructions k ⟨some (xs ++ f :: rest), p, c, a⟩ =
        searchInstructions k ⟨some xs, p, c, a⟩) := by
  refine ⟨fun terms ty xs rest f hmd hc => scanFiles_cut terms ty xs rest f hmd hc, ?_⟩
  intro k xs rest f p c a hmd hc
  simp [searchInstructions, scanCat, catDir, scanFiles_cut _ _ xs rest f hmd hc]

/-- Modelled from the spec's words for default-title derivation: try each
known suffix in order; if it ends the filename, strip it, otherwise leave the
filename unchanged. -/
def stripFirst : List Str → Str → Str
  | [], nm => nm
  | s :: ss, nm => if s <:+ nm then nm.take (nm.length - s.length) else stripFirst ss nm

/-- The spec-side default-title function over the tag set actually present in
the code (`instructions`, `prompt`, `chatmode`, `agent`). -/
def specStripSuffix (nm : Str) : Str := stripFirst tagSuffixes nm

theorem stripFirst_cons_char (ss : List Str) (c : Char) (cs : Str)
    (h : ∀ s ∈ ss, s ≠ c :: cs) :
    stripFirst ss (c :: cs) = c :: stripFirst ss cs := by
  induction ss with
  | nil => rfl
  | cons s ss2 ih =>
    have hs : (s <:+ c :: cs) ↔ (s <:+ cs) := by
      rw [List.suffix_cons_iff]
      constructor
      · rintro (he | h2)
        · exact absurd he (h s (List.mem_cons_self s ss2))
        · exact h2
      · exact Or.inr
    by_cases hsuf : s <:+ cs
    · have hlen : s.length ≤ cs.length := hsuf.length_le
      simp only [stripFirst, if_pos (hs.mpr hsuf), if_pos hsuf]
      rw [show (c :: cs).length - s.length = (cs.length - s.length) + 1 by
        simp only [List.length_cons]; omega]
      rfl
    · simp only [stripFirst, if_neg (fun hx => hsuf (hs.mp hx)), if_neg hsuf]
      exact ih (fun s2 hs2 => h s2 (List.mem_cons_of_mem s hs2))

theorem replaceTagSuffix_eq_spec (nm : Str) : replaceTagSuffix nm = specStripSuffix nm := by
  induction nm with
  | nil => decide
  | cons c cs ih =>
    by_cases ht : isTagRemainder (c :: cs) = true
    · obtain ⟨s, hs, he⟩ := List.any_eq_true.mp ht
      have he2 : s = c :: cs := by simpa using he
      rw [← he2]
      fin_cases hs <;> decide
    · have ht2 : isTagRemainder (c :: cs) = false := by
        simpa using ht
      have hne : ∀ s ∈ tagSuffixes, s ≠ c :: cs := by
        intro s hs he
        exact ht (List.any_eq_true.mpr ⟨s, hs, by simpa using he⟩)
      show (if isTagRemainder (c :: cs) then [] else c :: replaceTagSuffix cs) =
        specStripSuffix (c :: cs)
      rw [ht2, if_neg (by simp), ih, specStripSuffix, specStripSuffix,
        stripFirst_cons_char tagSuffixes c cs hne]

/-- C4 fails on the code: the suffix regex has no `collection` alternative, so
a file tagged `collection` keeps its full name as default title. -/
theorem C4_counterexample :
    listFiles "instructions".toList
      ⟨some [⟨"x.collection.md".toList, some "body".toList⟩],
        some [], some [], some []⟩ =
      .ok [⟨"x.collection.md".toList, "x.collection.md".toList, []⟩] ∧
    "x.collection.md".toList ≠ "x".toList := by
  exact ⟨by decide, by decide⟩

/-- C4 amended: the default title is the filename with a dot, one of the tags
`instructions`, `prompt`, `chatmode` or `agent` (collection is not in the
set), a dot and the `md` extension stripped from the end, the filename
unchanged when no such suffix matches; both the search and the list call
sites derive it this way whenever the front matter provides no title. -/
theorem C4_amended_default_title :
    (∀ nm : Str, replaceTagSuffix nm = specStripSuffix nm) ∧
    (∀ (fm : FM) (nm : Str), fmGet fm "title".toList = none →
      searchTitle fm nm = specStripSuffix nm ∧ listTitle fm nm = specStripSuffix nm) := by
  refine ⟨replaceTagSuffix_eq_spec, fun fm nm h => ?_⟩
  rw [searchTitle, listTitle, h]
  exact ⟨replaceTagSuffix_eq_spec nm, replaceTagSuffix_eq_spec nm⟩

theorem C4_witness :
    fmGet [] "title".toList = none ∧
    (searchTitle [] "a.collection.md".toList = specStripSuffix "a.collection.md".toList ∧
      listTitle [] "a.collection.md".toList = specStripSuffix "a.collection.md".toList) :=
  ⟨rfl, C4_amended_default_title.2 [] "a.collection.md".toList rfl⟩

theorem C3_witness :
    (endsMd "a.md".toList = true ∧
      (⟨"a.md".toList, none⟩ : FileEntry).content = none) ∧
    searchInstructions "kw".toList
      ⟨some ([] ++ ⟨"a.md".toList, none⟩ :: [⟨"b.md".toList, some "kw".toList⟩]),
        some [], some [], some []⟩ =
      searchInstructions "kw".toList ⟨some [], some [], some [], some []⟩ :=
  ⟨⟨by decide, rfl⟩,
    C3_amended_read_failure_ends_category.2 "kw".toList []
      [⟨"b.md".toList, some "kw".toList⟩] ⟨"a.md".toList, none⟩
      (some []) (some []) (some []) (by decide) rfl⟩

theorem lastNl_sound (r : Str) :
    ∀ (n j : Nat), lastNl r n = some j → j < n ∧ r.get? j = some '\n' := by
  intro n
  induction n with
  | zero => intro j h; cases h
  | succ m ih =>
    intro j h
    simp only [lastNl] at h
    by_cases hg : r.get? m = some '\n'
    · rw [if_pos hg] at h
      cases h
      exact ⟨Nat.lt_succ_self m, hg⟩
    · rw [if_neg hg] at h
      have h2 := ih j h
      exact ⟨Nat.lt_succ_of_lt h2.1, h2.2⟩

theorem lastNl_isSome (r : Str) :
    ∀ (n j : Nat), j < n → r.get? j = some '\n' → (lastNl r n).isSome = true := by
  intro n
  induction n with
  | zero => intro j hj _; omega
  | succ m ih =>
    intro j hj hg
    simp only [lastNl]
    by_cases hm : r.get? m = some '\n'
    · rw [if_pos hm]; rfl
    · rw [if_neg hm]
      have hjm : j < m := by
        rcases Nat.lt_succ_iff_lt_or_eq.mp hj with h | h
        · exact h
        · exact absurd (h ▸ hg) hm
      exact ih j hjm hg

theorem take_all_of_le_takeWhile (p : Char → Bool) :
    ∀ (r : Str) (j : Nat), j ≤ (r.takeWhile p).length → (r.take j).all p = true := by
  intro r
  induction r with
  | nil => intro j h; simp at h; simp [h]
  | cons c r2 ih =>
    intro j h
    cases j with
    | zero => simp
    | succ j2 =>
      by_cases hc : p c
      · rw [List.takeWhile_cons_of_pos hc] at h
        simp only [List.length_cons, Nat.succ_le_succ_iff] at h
        simp [hc, ih j2 h]
      · rw [List.takeWhile_cons_of_neg hc] at h
        simp at h

theorem takeWhile_length_ge (p : Char → Bool) :
    ∀ (w r : Str), w.all p = true → w.length ≤ ((w ++ r).takeWhile p).length := by
  intro w
  induction w with
  | nil => intro r _; simp
  | cons c w2 ih =>
    intro r hw
    simp only [List.all_cons, Bool.and_eq_true] at hw
    rw [List.cons_append, List.takeWhile_cons_of_pos hw.1]
    simpa using ih r hw.2

theorem split_at_get (r : Str) (j : Nat) (c : Char) (h : r.get? j = some c) :
    r = r.take j ++ c :: r.drop (j + 1) := by
  rw [List.get?_eq_getElem?] at h
  obtain ⟨hlt, hc⟩ := List.getElem?_eq_some_iff.mp h
  conv_lhs => rw [← List.take_append_drop j r]
  rw [List.drop_eq_getElem_cons hlt, hc]

theorem drop_append_cons (w y : Str) (c : Char) :
    (w ++ c :: y).drop (w.length + 1) = y := by
  rw [List.append_cons]
  exact List.drop_left' (by simp)

theorem get_append_cons (w y : Str) (c : Char) : (w ++ c :: y).get? w.length = some c := by
  rw [List.get?_eq_getElem?]
  rw [List.getElem?_append_right (Nat.le_refl w.length)]
  simp

theorem greedyWsNl_sound (r rem : Str) (h : greedyWsNl r = some rem) :
    ∃ w, w.all isWS = true ∧ r = w ++ '\n' :: rem := by
  simp only [greedyWsNl] at h
  cases hl : lastNl r ((r.takeWhile isWS).length) with
  | none => rw [hl] at h; cases h
  | some j =>
    rw [hl] at h
    cases h
    obtain ⟨hj, hg⟩ := lastNl_sound r _ j hl
    refine ⟨r.take j, take_all_of_le_takeWhile isWS r j (Nat.le_of_lt hj), ?_⟩
    exact split_at_get r j '\n' hg

theorem greedyWsNl_isSome (w r : Str) (hw : w.all isWS = true) :
    (greedyWsNl (w ++ '\n' :: r)).isSome = true := by
  simp only [greedyWsNl]
  have hg : (w ++ '\n' :: r).get? w.length = some '\n' := get_append_cons w r '\n'
  have hn : w.length < (((w ++ '\n' :: r)).takeWhile isWS).length := by
    have h1 : (w ++ ['\n']).length ≤ (((w ++ ['\n']) ++ r).takeWhile isWS).length :=
      takeWhile_length_ge isWS (w ++ ['\n']) r (by rw [List.all_append, hw]; decide)
    have h2 : (w ++ ['\n']) ++ r = w ++ '\n' :: r := by simp
    rw [h2] at h1
    simp only [List.length_append, List.length_cons] at h1
    omega
  have := lastNl_isSome (w ++ '\n' :: r) _ w.length hn hg
  cases hl : lastNl (w ++ '\n' :: r) (((w ++ '\n' :: r)).takeWhile isWS).length with
  | none => rw [hl] at this; cases this
  | some j => rfl

theorem closeHere_sound (c : Char) (cs rem : Str) (h : closeHere c cs = some rem) :
    c = '\n' ∧ ∃ w2, w2.all isWS = true ∧ cs = "---".toList ++ (w2 ++ '\n' :: rem) := by
  simp only [closeHere] at h
  by_cases hc : (c == '\n' && "---".toList.isPrefixOf cs) = true
  · rw [if_pos hc] at h
    simp only [Bool.and_eq_true, beq_iff_eq] at hc
    obtain ⟨t, ht⟩ := List.isPrefixOf_iff_prefix.mp hc.2
    have hd3 : cs.drop 3 = t := by rw [← ht]; exact List.drop_left' (by decide)
    rw [hd3] at h
    obtain ⟨w2, hw2, hsplit⟩ := greedyWsNl_sound t rem h
    exact ⟨hc.1, w2, hw2, by rw [← ht, hsplit]⟩
  · rw [if_neg hc] at h
    cases h

theorem closeHere_isSome (w2 tail : Str) (hw : w2.all isWS = true) :
    (closeHere '\n' ("---".toList ++ (w2 ++ '\n' :: tail))).isSome = true := by
  simp only [closeHere]
  have hp : "---".toList.isPrefixOf ("---".toList ++ (w2 ++ '\n' :: tail)) = true :=
    List.isPrefixOf_iff_prefix.mpr ⟨_, rfl⟩
  rw [if_pos (by simp [hp])]
  have hd3 : ("---".toList ++ (w2 ++ '\n' :: tail)).drop 3 = w2 ++ '\n' :: tail :=
    List.drop_left' (by decide)
  rw [hd3]
  exact greedyWsNl_isSome w2 tail hw

theorem findClose_sound :
    ∀ (g pre rem : Str), findClose g = some (pre, rem) →
      ∃ w2, w2.all isWS = true ∧ g = pre ++ '\n' :: ("---".toList ++ (w2 ++ '\n' :: rem))
  | [], pre, rem, h => by cases h
  | c :: cs, pre, rem, h => by
    simp only [findClose] at h
    cases htry : closeHere c cs with
    | some rem2 =>
      rw [htry] at h
      injection h with hpair
      injection hpair with hA hB
      subst hA
      subst hB
      obtain ⟨hc, w2, hw2, hcs⟩ := closeHere_sound c cs rem2 htry
      exact ⟨w2, hw2, by rw [hc, hcs]; rfl⟩
    | none =>
      rw [htry] at h
      cases hrec : findClose cs with
      | none => rw [hrec] at h; cases h
      | some pr =>
        obtain ⟨pre2, rem2⟩ := pr
        rw [hrec] at h
        injection h with hpair
        injection hpair with hA hB
        subst hA
        subst hB
        obtain ⟨w2, hw2, hcs⟩ := findClose_sound cs pre2 rem2 hrec
        exact ⟨w2, hw2, by rw [List.cons_append, ← hcs]⟩

theorem findClose_isSome :
    ∀ (a w2 tail : Str), w2.all isWS = true →
      (findClose (a ++ '\n' :: ("---".toList ++ (w2 ++ '\n' :: tail)))).isSome = true
  | [], w2, tail, hw => by
    simp only [List.nil_append, findClose]
    have h := closeHere_isSome w2 tail hw
    cases hc : closeHere '\n' ("---".toList ++ (w2 ++ '\n' :: tail)) with
    | none => rw [hc] at h; simp at h
    | some rem => rfl
  | c :: a2, w2, tail, hw => by
    rw [List.cons_append]
    simp only [findClose]
    cases hc : closeHere c (a2 ++ '\n' :: ("---".toList ++ (w2 ++ '\n' :: tail))) with
    | some rem => rfl
    | none =>
      have h := findClose_isSome a2 w2 tail hw
      cases hrec : findClose (a2 ++ '\n' :: ("---".toList ++ (w2 ++ '\n' :: tail))) with
      | none => rw [hrec] at h; simp at h
      | some pr => obtain ⟨pre2, rem2⟩ := pr; rfl

theorem openLoop_sound (r : Str) :
    ∀ (n : Nat) (g rem : Str), openLoop r n = some (g, rem) →
      ∃ j, j < n ∧ r.get? j = some '\n' ∧ findClose (r.drop (j + 1)) = some (g, rem) := by
  intro n
  induction n with
  | zero => intro g rem h; cases h
  | succ m ih =>
    intro g rem h
    simp only [openLoop] at h
    by_cases hg : r.get? m = some '\n'
    · rw [if_pos hg] at h
      cases hf : findClose (r.drop (m + 1)) with
      | none =>
        rw [hf] at h
        obtain ⟨j, hj, hj2, hj3⟩ := ih g rem h
        exact ⟨j, Nat.lt_succ_of_lt hj, hj2, hj3⟩
      | some pr =>
        rw [hf] at h
        cases h
        exact ⟨m, Nat.lt_succ_self m, hg, hf⟩
    · rw [if_neg hg] at h
      obtain ⟨j, hj, hj2, hj3⟩ := ih g rem h
      exact ⟨j, Nat.lt_succ_of_lt hj, hj2, hj3⟩

theorem openLoop_isSome (r : Str) :
    ∀ (n j : Nat), j < n → r.get? j = some '\n' →
      (findClose (r.drop (j + 1))).isSome = true → (openLoop r n).isSome = true := by
  intro n
  induction n with
  | zero => intro j hj _ _; omega
  | succ m ih =>
    intro j hj hg hf
    simp only [openLoop]
    by_cases hm : r.get? m = some '\n'
    · rw [if_pos hm]
      cases hfm : findClose (r.drop (m + 1)) with
      | some pr => rfl
      | none =>
        rcases Nat.lt_succ_iff_lt_or_eq.mp hj with hlt | heq
        · exact ih j hlt hg hf
        · subst heq
          rw [hfm] at hf
          cases hf
    · rw [if_neg hm]
      rcases Nat.lt_succ_iff_lt_or_eq.mp hj with hlt | heq
      · exact ih j hlt hg hf
      · subst heq
        exact absurd hg hm

/-- C6 fails on the code: the delimiter pattern is `---\s*\n`, so a text whose
delimiter lines carry trailing blanks — hence do not consist solely of `---` —
is still recognized as front matter instead of being treated as plain body. -/
theorem C6_counterexample :
    (splitOnNl "--- \na: b\n--- \nx".toList).head? = some "--- ".toList ∧
    "--- ".toList ≠ "---".toList ∧
    (extractFrontmatter "--- \na: b\n--- \nx".toList).1 = [("a".toList, "b".toList)] ∧
    (extractFrontmatter "--- \na: b\n--- \nx".toList).2 = "x".toList := by
  exact ⟨by decide, by decide, by decide, by decide⟩

/-- C6 amended: front matter is recognized exactly when the text starts with
`---` plus optional whitespace, a newline, any block, a newline, `---` plus
optional whitespace and a newline (the delimiter lines are `---` with
optional trailing whitespace rather than solely `---`); any other text is
returned whole as body with an empty metadata map. -/
theorem C6_amended_recognition_shape (content : Str) :
    ((fmMatch content).isSome = true ↔
      ∃ w1 mid w2 tail : Str, w1.all isWS = true ∧ w2.all isWS = true ∧
        content =
          "---".toList ++ w1 ++ '\n' :: (mid ++ '\n' :: ("---".toList ++ (w2 ++ '\n' :: tail)))) ∧
    (fmMatch content = none → extractFrontmatter content = ([], content)) := by
  constructor
  · constructor
    · intro h
      by_cases hp : "---".toList.isPrefixOf content
      · obtain ⟨t, ht⟩ := List.isPrefixOf_iff_prefix.mp hp
        have hd3 : content.drop 3 = t := by rw [← ht]; exact List.drop_left' (by decide)
        rw [fmMatch, if_pos hp, hd3] at h
        cases hm : openLoop t ((t.takeWhile isWS).length) with
        | none => rw [hm] at h; cases h
        | some pr =>
          obtain ⟨g, rem⟩ := pr
          obtain ⟨j, hj, hg, hf⟩ := openLoop_sound t _ g rem hm
          obtain ⟨w2, hw2, hmid⟩ := findClose_sound (t.drop (j + 1)) g rem hf
          refine ⟨t.take j, g, w2, rem,
            take_all_of_le_takeWhile isWS t j (Nat.le_of_lt hj), hw2, ?_⟩
          rw [← ht]
          conv_lhs => rw [split_at_get t j '\n' hg]
          rw [hmid]
          simp
      · rw [fmMatch, if_neg hp] at h
        cases h
    · rintro ⟨w1, mid, w2, tail, hw1, hw2, hc⟩
      subst hc
      have hp : "---".toList.isPrefixOf
          ("---".toList ++ w1 ++ '\n' :: (mid ++ '\n' :: ("---".toList ++ (w2 ++ '\n' :: tail)))) = true := by
        rw [List.isPrefixOf_iff_prefix]
        exact ⟨w1 ++ '\n' :: (mid ++ '\n' :: ("---".toList ++ (w2 ++ '\n' :: tail))), rfl⟩
      rw [fmMatch, if_pos hp]
      have hd3 : ("---".toList ++ w1 ++ '\n' :: (mid ++ '\n' :: ("---".toList ++ (w2 ++ '\n' :: tail)))).drop 3 =
          w1 ++ '\n' :: (mid ++ '\n' :: ("---".toList ++ (w2 ++ '\n' :: tail))) :=
        @List.drop_left' Char "---".toList
          (w1 ++ '\n' :: (mid ++ '\n' :: ("---".toList ++ (w2 ++ '\n' :: tail)))) 3 (by decide)
      rw [hd3]
      refine openLoop_isSome _ _ w1.length ?_ (get_append_cons w1 _ '\n') ?_
      · have hws : (w1 ++ ['\n']).all isWS = true := by
          rw [List.all_append, hw1]
          decide
        have h1 : (w1 ++ ['\n']).length ≤
            (((w1 ++ ['\n']) ++ (mid ++ '\n' :: ("---".toList ++ (w2 ++ '\n' :: tail)))).takeWhile isWS).length :=
          takeWhile_length_ge isWS (w1 ++ ['\n']) _ hws
        have h2 : (w1 ++ ['\n']) ++ (mid ++ '\n' :: ("---".toList ++ (w2 ++ '\n' :: tail))) =
            w1 ++ '\n' :: (mid ++ '\n' :: ("---".toList ++ (w2 ++ '\n' :: tail))) := by
          rw [List.append_assoc]
          rfl
        rw [h2] at h1
        simp only [List.length_append, List.length_singleton] at h1
        omega
      · rw [drop_append_cons]
        exact findClose_isSome mid w2 tail hw2
  · intro h
    simp [extractFrontmatter, h]

theorem C6_witness :
    fmMatch "plain body".toList = none ∧
    extractFrontmatter "plain body".toList = ([], "plain body".toList) :=
  ⟨by decide, (C6_amended_recognition_shape "plain body".toList).2 (by decide)⟩

/-- C8: metadata extraction is a pure total function: the two independent
call-site copies of the record assembly (search, lines 84–90, and list, lines
143–147) produce identical title and description for the same filename and
raw text — re-parsing the same raw text yields an identical record — and on
any text without a recognizable front-matter block every field falls back to
its default (derived title, empty description, absent mode) instead of
failing. -/
theorem C8_extract_total_deterministic (nm c : Str) :
    searchTitle (extractFrontmatter c).1 nm = listTitle (extractFrontmatter c).1 nm ∧
    searchDesc (extractFrontmatter c).1 = listDesc (extractFrontmatter c).1 ∧
    (fmMatch c = none →
      searchTitle (extractFrontmatter c).1 nm = replaceTagSuffix nm ∧
      searchDesc (extractFrontmatter c).1 = [] ∧
      searchMode (extractFrontmatter c).1 = none) := by
  refine ⟨rfl, rfl, fun h => ?_⟩
  simp [extractFrontmatter, h, searchTitle, searchDesc, searchMode, fmGet]

theorem C8_witness :
    fmMatch "body only".toList = none ∧
    (searchTitle (extractFrontmatter "body only".toList).1 "n.md".toList =
        replaceTagSuffix "n.md".toList ∧
      searchDesc (extractFrontmatter "body only".toList).1 = [] ∧
      searchMode (extractFrontmatter "body only".toList).1 = none) :=
  ⟨by decide,
    (C8_extract_total_deterministic "n.md".toList "body only".toList).2.2 (by decide)⟩

/-! ## Tokenizer lemmas (C7, C10) -/

set_option maxHeartbeats 1000000 in
theorem isWS_toLowerC (c : Char) : isWS (toLowerC c) = isWS c := by
  by_cases h : 65 ≤ c.toNat ∧ c.toNat ≤ 90
  · have h1 : isWS c = false := by
      have h2 : c.toNat ∉ wsCodes := by
        intro hm
        simp [wsCodes] at hm
        omega
      simpa [isWS] using h2
    have h2 : isWS (toLowerC c) = false := by
      unfold toLowerC
      split <;> first | decide | (exact h1)
    rw [h1, h2]
  · have he : toLowerC c = c := by
      unfold toLowerC
      split <;> simp_all
    rw [he]

theorem splitWS_ne_nil : ∀ (l : Str), splitWS l ≠ []
  | [] => by simp [splitWS]
  | c :: rest => by
    by_cases hc : isWS c
    · cases rest with
      | nil => simp [splitWS, hc]
      | cons c2 r2 =>
        by_cases h2 : isWS c2
        · simpa [splitWS, hc, h2] using splitWS_ne_nil (c2 :: r2)
        · simp [splitWS, hc, h2]
    · cases hs : splitWS rest with
      | nil => exact absurd hs (splitWS_ne_nil rest)
      | cons t ts => simp [splitWS, hc, hs]

theorem splitWS_cons_ws_ws (c c2 : Char) (r2 : Str) (hc : isWS c = true)
    (h2 : isWS c2 = true) : splitWS (c :: c2 :: r2) = splitWS (c2 :: r2) := by
  simp [splitWS, hc, h2]

theorem splitWS_cons_ws_nws (c c2 : Char) (r2 : Str) (hc : isWS c = true)
    (h2 : isWS c2 = false) : splitWS (c :: c2 :: r2) = [] :: splitWS (c2 :: r2) := by
  simp [splitWS, hc, h2]

theorem splitWS_cons_not_ws (c : Char) (rest : Str) (hc : isWS c = false)
    (t : Str) (ts : List Str) (h : splitWS rest = t :: ts) :
    splitWS (c :: rest) = (c :: t) :: ts := by
  simp [splitWS, hc, h]

theorem splitWS_ws_head : ∀ (m : Str) (c : Char), isWS c = true →
    ∃ ts, splitWS (c :: m) = [] :: ts
  | [], c, hc => ⟨[[]], by simp [splitWS, hc]⟩
  | c2 :: m2, c, hc => by
    by_cases h2 : isWS c2
    · obtain ⟨ts, hts⟩ := splitWS_ws_head m2 c2 h2
      exact ⟨ts, by rw [splitWS_cons_ws_ws c c2 m2 hc h2]; exact hts⟩
    · exact ⟨splitWS (c2 :: m2),
        splitWS_cons_ws_nws c c2 m2 hc (by simpa using h2)⟩

theorem splitWS_append_sep : ∀ (l : Str) (w : Char) (m : Str), isWS w = true →
    (∀ c, l.getLast? = some c → isWS c = false) → l ≠ [] →
    splitWS (l ++ w :: m) = splitWS l ++ (splitWS (w :: m)).tail
  | [], _, _, _, _, hne => absurd rfl hne
  | [c], w, m, hw, hlast, _ => by
    have hc : isWS c = false := hlast c (by simp)
    obtain ⟨ts, hts⟩ := splitWS_ws_head m w hw
    have h1 : splitWS ([c] ++ w :: m) = splitWS (c :: w :: m) := rfl
    rw [h1, splitWS_cons_not_ws c (w :: m) hc [] ts hts,
      splitWS_cons_not_ws c [] hc [] [] (by simp [splitWS]), hts]
    rfl
  | c :: d :: l3, w, m, hw, hlast, _ => by
    have hlast2 : ∀ e, (d :: l3).getLast? = some e → isWS e = false := by
      intro e he
      exact hlast e (by rw [List.getLast?_cons_cons]; exact he)
    have ih := splitWS_append_sep (d :: l3) w m hw hlast2 (by simp)
    rw [List.cons_append] at ih
    by_cases hc : isWS c
    · by_cases hd : isWS d
      · have e1 : splitWS (c :: (d :: (l3 ++ w :: m))) = splitWS (d :: (l3 ++ w :: m)) :=
          splitWS_cons_ws_ws c d _ hc hd
        have e2 : splitWS (c :: d :: l3) = splitWS (d :: l3) :=
          splitWS_cons_ws_ws c d l3 hc hd
        show splitWS (c :: (d :: (l3 ++ w :: m))) = _
        rw [e1, e2]
        exact ih
      · have hdf : isWS d = false := by simpa using hd
        have e1 : splitWS (c :: (d :: (l3 ++ w :: m))) = [] :: splitWS (d :: (l3 ++ w :: m)) :=
          splitWS_cons_ws_nws c d _ hc hdf
        have e2 : splitWS (c :: d :: l3) = [] :: splitWS (d :: l3) :=
          splitWS_cons_ws_nws c d l3 hc hdf
        show splitWS (c :: (d :: (l3 ++ w :: m))) = _
        rw [e1, e2, ih]
        rfl
    · have hcf : isWS c = false := by simpa using hc
      cases hs : splitWS (d :: l3) with
      | nil => exact absurd hs (splitWS_ne_nil _)
      | cons t ts2 =>
        rw [hs] at ih
        have ihh : splitWS (d :: (l3 ++ w :: m)) = t :: (ts2 ++ (splitWS (w :: m)).tail) := by
          rw [ih]
          rfl
        have e1 : splitWS (c :: (d :: (l3 ++ w :: m))) =
            (c :: t) :: (ts2 ++ (splitWS (w :: m)).tail) :=
          splitWS_cons_not_ws c _ hcf t _ ihh
        have e2 : splitWS (c :: d :: l3) = (c :: t) :: ts2 :=
          splitWS_cons_not_ws c _ hcf t ts2 hs
        show splitWS (c :: (d :: (l3 ++ w :: m))) = _
        rw [e1, e2]
        rfl

theorem splitWS_subset_append (l : Str) (w : Char) (m : Str) (hw : isWS w = true)
    (hlast : ∀ c, l.getLast? = some c → isWS c = false) :
    ∀ tok ∈ splitWS l, tok ∈ splitWS (l ++ w :: m) := by
  intro tok htok
  cases l with
  | nil =>
    simp [splitWS] at htok
    subst htok
    obtain ⟨ts, hts⟩ := splitWS_ws_head m w hw
    show ([] : Str) ∈ splitWS (w :: m)
    rw [hts]
    exact List.mem_cons_self _ _
  | cons c l2 =>
    rw [splitWS_append_sep (c :: l2) w m hw hlast (by simp)]
    exact List.mem_append_left _ htok

theorem splitWS_trailing : ∀ (l : Str) (c : Char), l.getLast? = some c → isWS c = true →
    (splitWS l).getLast? = some [] ∧ 2 ≤ (splitWS l).length
  | [], c, h, _ => by simp at h
  | [d], c, h, hws => by
    have hd : d = c := by simpa using h
    subst hd
    have : splitWS [d] = [[], []] := by simp [splitWS, hws]
    rw [this]
    exact ⟨rfl, by simp⟩
  | d :: e :: l3, c, h, hws => by
    have h2 : (e :: l3).getLast? = some c := by
      rw [← List.getLast?_cons_cons]
      exact h
    have ih := splitWS_trailing (e :: l3) c h2 hws
    by_cases hd : isWS d
    · by_cases he : isWS e
      · rw [splitWS_cons_ws_ws d e l3 hd he]
        exact ih
      · rw [splitWS_cons_ws_nws d e l3 hd (by simpa using he)]
        cases hs : splitWS (e :: l3) with
        | nil => exact absurd hs (splitWS_ne_nil _)
        | cons t ts =>
          rw [hs] at ih
          refine ⟨?_, by simp⟩
          rw [List.getLast?_cons_cons]
          exact ih.1
    · cases hs : splitWS (e :: l3) with
      | nil => exact absurd hs (splitWS_ne_nil _)
      | cons t ts =>
        rw [splitWS_cons_not_ws d (e :: l3) (by simpa using hd) t ts hs]
        rw [hs] at ih
        cases ts with
        | nil => simp at ih
        | cons u ts2 =>
          refine ⟨?_, by simp⟩
          rw [List.getLast?_cons_cons]
          rw [List.getLast?_cons_cons] at ih
          exact ih.1

/-! ## Search monotonicity lemmas (C7) -/

theorem scanFiles_cons_skip (terms : List Str) (ty : Str) (f : FileEntry)
    (rest : List FileEntry) (hm : endsMd f.name = false) :
    scanFiles terms ty (f :: rest) = scanFiles terms ty rest := by
  simp [scanFiles, hm]

theorem scanFiles_cons_fail (terms : List Str) (ty : Str) (f : FileEntry)
    (rest : List FileEntry) (hm : endsMd f.name = true) (hc : f.content = none) :
    scanFiles terms ty (f :: rest) = [] := by
  simp [scanFiles, hm, hc]

theorem scanFiles_cons_ok (terms : List Str) (ty : Str) (f : FileEntry)
    (rest : List FileEntry) (c : Str) (hm : endsMd f.name = true)
    (hc : f.content = some c) :
    scanFiles terms ty (f :: rest) =
      (if terms.any (fun tok => containsSub tok (hayOf f.name c)) then
        [mkSearchItem ty f.name c]
      else []) ++ scanFiles terms ty rest := by
  simp [scanFiles, hm, hc]

theorem scanFiles_mono (terms terms2 : List Str) (ty : Str) (files : List FileEntry)
    (hsub : ∀ tok ∈ terms, tok ∈ terms2) :
    ∀ item ∈ scanFiles terms ty files, item ∈ scanFiles terms2 ty files := by
  induction files with
  | nil => intro item h; simp [scanFiles] at h
  | cons f rest ih =>
    intro item h
    by_cases hm : endsMd f.name
    · cases hc : f.content with
      | none => rw [scanFiles_cons_fail terms ty f rest hm hc] at h; simp at h
      | some c =>
        rw [scanFiles_cons_ok terms ty f rest c hm hc] at h
        rw [scanFiles_cons_ok terms2 ty f rest c hm hc]
        rcases List.mem_append.mp h with h1 | h2
        · by_cases hmatch : terms.any (fun tok => containsSub tok (hayOf f.name c)) = true
          · have hmatch2 : terms2.any (fun tok => containsSub tok (hayOf f.name c)) = true := by
              obtain ⟨tok, htok, hp⟩ := List.any_eq_true.mp hmatch
              exact List.any_eq_true.mpr ⟨tok, hsub tok htok, hp⟩
            rw [if_pos hmatch] at h1
            rw [if_pos hmatch2]
            exact List.mem_append_left _ h1
          · rw [if_neg hmatch] at h1
            simp at h1
        · exact List.mem_append_right _ (ih item h2)
    · rw [scanFiles_cons_skip terms ty f rest (by simpa using hm)] at h
      rw [scanFiles_cons_skip terms2 ty f rest (by simpa using hm)]
      exact ih item h

theorem scanCat_mono (terms terms2 : List Str) (cat : Cat) (fs : FS)
    (hsub : ∀ tok ∈ terms, tok ∈ terms2) :
    ∀ item ∈ scanCat terms cat fs, item ∈ scanCat terms2 cat fs := by
  intro item h
  cases hd : catDir cat fs with
  | none =>
    rw [show scanCat terms cat fs = [] by simp [scanCat, hd]] at h
    simp at h
  | some files =>
    rw [show scanCat terms cat fs = scanFiles terms (catName cat) files by
      simp [scanCat, hd]] at h
    rw [show scanCat terms2 cat fs = scanFiles terms2 (catName cat) files by
      simp [scanCat, hd]]
    exact scanFiles_mono terms terms2 _ files hsub item h

/-- C7 fails on the code: when the keywords string ends in whitespace, its
token list holds a trailing empty token which matches everything; appending a
separator and a further token collapses the whitespace run, the empty token
disappears, and previously matching files drop out. -/
theorem C7_counterexample :
    searchInstructions "q ".toList
      ⟨some [⟨"f.md".toList, some "hello".toList⟩], some [], some [], some []⟩ =
      [⟨"instructions".toList, "f.md".toList, "f.md".toList, [], none⟩] ∧
    searchInstructions ("q ".toList ++ " ".toList ++ "z".toList)
      ⟨some [⟨"f.md".toList, some "hello".toList⟩], some [], some [], some []⟩ = [] := by
  exact ⟨by decide, by decide⟩

/-- C7 amended: search with OR semantics is monotonic in token count provided
the original keywords string does not end in a whitespace character: appending
a whitespace separator and a further token never removes a previously
matching file. -/
theorem C7_amended_monotonic (k t : Str) (w : Char) (fs : FS) (hw : isWS w = true)
    (hlast : ∀ c, k.getLast? = some c → isWS c = false) :
    ∀ item ∈ searchInstructions k fs, item ∈ searchInstructions (k ++ w :: t) fs := by
  have hsub : ∀ tok ∈ splitWS (lower k), tok ∈ splitWS (lower (k ++ w :: t)) := by
    have hmap : lower (k ++ w :: t) = lower k ++ toLowerC w :: lower t := by
      simp [lower]
    rw [hmap]
    refine splitWS_subset_append (lower k) (toLowerC w) (lower t)
      (by rw [isWS_toLowerC]; exact hw) ?_
    intro c hc
    rw [lower, List.getLast?_map] at hc
    cases hk : k.getLast? with
    | none => rw [hk] at hc; cases hc
    | some c0 =>
      rw [hk] at hc
      injection hc with hc0
      rw [← hc0, isWS_toLowerC]
      exact hlast c0 hk
  intro item h
  simp only [searchInstructions] at h ⊢
  rcases List.mem_append.mp h with h123 | h4
  · rcases List.mem_append.mp h123 with h12 | h3
    · rcases List.mem_append.mp h12 with h1 | h2
      · exact List.mem_append_left _ (List.mem_append_left _
          (List.mem_append_left _ (scanCat_mono _ _ _ fs hsub item h1)))
      · exact List.mem_append_left _ (List.mem_append_left _
          (List.mem_append_right _ (scanCat_mono _ _ _ fs hsub item h2)))
    · exact List.mem_append_left _
        (List.mem_append_right _ (scanCat_mono _ _ _ fs hsub item h3))
  · exact List.mem_append_right _ (scanCat_mono _ _ _ fs hsub item h4)

theorem C7_witness :
    (isWS ' ' = true ∧
      (∀ c, "py".toList.getLast? = some c → isWS c = false)) ∧
    (∀ item ∈ searchInstructions "py".toList
        ⟨some [⟨"f.md".toList, some "python".toList⟩], some [], some [], some []⟩,
      item ∈ searchInstructions ("py".toList ++ ' ' :: "zz".toList)
        ⟨some [⟨"f.md".toList, some "python".toList⟩], some [], some [], some []⟩) :=
  ⟨⟨by decide, by decide⟩,
    C7_amended_monotonic "py".toList "zz".toList ' '
      ⟨some [⟨"f.md".toList, some "python".toList⟩], some [], some [], some []⟩
      (by decide) (by decide)⟩

/-! ## Empty-token lemmas (C10) -/

theorem scanFiles_all_member (terms : List Str) (ty : Str) (hterm : [] ∈ terms) :
    ∀ (files : List FileEntry),
      (∀ g ∈ files, endsMd g.name = true → g.content ≠ none) →
      ∀ f ∈ files, endsMd f.name = true → ∀ c, f.content = some c →
        mkSearchItem ty f.name c ∈ scanFiles terms ty files := by
  intro files
  induction files with
  | nil =>
    intro _ f hf
    cases hf
  | cons g rest ih =>
    intro hall f hf hmd c hc
    have hmatch : ∀ nm cc : Str,
        terms.any (fun tok => containsSub tok (hayOf nm cc)) = true :=
      fun nm cc => List.any_eq_true.mpr ⟨[], hterm, containsSub_nil _⟩
    rcases List.mem_cons.mp hf with heq | hmem
    · subst heq
      rw [scanFiles_cons_ok terms ty f rest c hmd hc, if_pos (hmatch f.name c)]
      exact List.mem_append_left _ (List.mem_singleton.mpr rfl)
    · have hall2 : ∀ x ∈ rest, endsMd x.name = true → x.content ≠ none :=
        fun x hx => hall x (List.mem_cons_of_mem g hx)
      by_cases hgm : endsMd g.name
      · cases hgc : g.content with
        | none => exact absurd hgc (hall g (List.mem_cons_self g rest) hgm)
        | some cg =>
          rw [scanFiles_cons_ok terms ty g rest cg hgm hgc]
          exact List.mem_append_right _ (ih hall2 f hmem hmd c hc)
      · rw [scanFiles_cons_skip terms ty g rest (by simpa using hgm)]
        exact ih hall2 f hmem hmd c hc

theorem scanCat_sub_search (k : Str) (fs : FS) (cat : Cat) :
    ∀ item ∈ scanCat (splitWS (lower k)) cat fs, item ∈ searchInstructions k fs := by
  intro item h
  simp only [searchInstructions]
  cases cat with
  | instructions =>
    exact List.mem_append_left _ (List.mem_append_left _ (List.mem_append_left _ h))
  | prompts =>
    exact List.mem_append_left _ (List.mem_append_left _ (List.mem_append_right _ h))
  | chatmodes => exact List.mem_append_left _ (List.mem_append_right _ h)
  | agents => exact List.mem_append_right _ h

/-- C10 fails on the code in one corner: with the empty keywords string, the
empty token matches everything, yet an eligible readable file sitting after a
failing file in the same category is still missing from the results. -/
theorem C10_counterexample :
    searchInstructions []
      ⟨some [⟨"a.md".toList, none⟩, ⟨"b.md".toList, some "x".toList⟩],
        some [], some [], some []⟩ = [] ∧
    endsMd "b.md".toList = true ∧
    (⟨"b.md".toList, some "x".toList⟩ : FileEntry).content ≠ none := by
  exact ⟨by decide, by decide, by decide⟩

/-- C10 amended: for every keywords string that is empty or begins or ends
with whitespace, tokenization produces an empty token, and since the empty
string is a substring of every haystack, search returns every eligible file of
every category whose directory listing succeeds and whose eligible files are
all readable, regardless of the other tokens. -/
theorem C10_amended_empty_token_matches_all (k : Str) (fs : FS)
    (hedge : k = [] ∨ (∃ c, k.head? = some c ∧ isWS c = true) ∨
      (∃ c, k.getLast? = some c ∧ isWS c = true)) :
    [] ∈ splitWS (lower k) ∧
    ∀ (cat : Cat) (files : List FileEntry), catDir cat fs = some files →
      (∀ g ∈ files, endsMd g.name = true → g.content ≠ none) →
      ∀ f ∈ files, endsMd f.name = true → ∀ c, f.content = some c →
        mkSearchItem (catName cat) f.name c ∈ searchInstructions k fs := by
  have hmem : [] ∈ splitWS (lower k) := by
    rcases hedge with h | ⟨c, hc, hw⟩ | ⟨c, hc, hw⟩
    · subst h
      simp [lower, splitWS]
    · cases k with
      | nil => cases hc
      | cons c0 k2 =>
        injection hc with hc0
        subst hc0
        have hwl : isWS (toLowerC c0) = true := by rw [isWS_toLowerC]; exact hw
        obtain ⟨ts, hts⟩ := splitWS_ws_head (lower k2) (toLowerC c0) hwl
        show ([] : Str) ∈ splitWS (toLowerC c0 :: lower k2)
        rw [hts]
        exact List.mem_cons_self _ _
    · have hlast : (lower k).getLast? = some (toLowerC c) := by
        rw [lower, List.getLast?_map, hc]
        rfl
      have hwl : isWS (toLowerC c) = true := by rw [isWS_toLowerC]; exact hw
      exact List.mem_of_getLast?_eq_some (splitWS_trailing (lower k) (toLowerC c) hlast hwl).1
  refine ⟨hmem, ?_⟩
  intro cat files hdir hall f hf hmd c hc
  have h1 : mkSearchItem (catName cat) f.name c ∈
      scanFiles (splitWS (lower k)) (catName cat) files :=
    scanFiles_all_member _ _ hmem files hall f hf hmd c hc
  have h2 : mkSearchItem (catName cat) f.name c ∈ scanCat (splitWS (lower k)) cat fs := by
    rw [show scanCat (splitWS (lower k)) cat fs =
      scanFiles (splitWS (lower k)) (catName cat) files by simp [scanCat, hdir]]
    exact h1
  exact scanCat_sub_search k fs cat _ h2

theorem C10_witness :
    (("  ".toList : Str) = [] ∨
      (∃ c, "  ".toList.head? = some c ∧ isWS c = true) ∨
      (∃ c, "  ".toList.getLast? = some c ∧ isWS c = true)) ∧
    ([] ∈ splitWS (lower "  ".toList) ∧
      ∀ (cat : Cat) (files : List FileEntry),
        catDir cat ⟨some [⟨"b.md".toList, some "x".toList⟩], some [], some [], some []⟩ =
          some files →
        (∀ g ∈ files, endsMd g.name = true → g.content ≠ none) →
        ∀ f ∈ files, endsMd f.name = true → ∀ c, f.content = some c →
          mkSearchItem (catName cat) f.name c ∈
            searchInstructions "  ".toList
              ⟨some [⟨"b.md".toList, some "x".toList⟩], some [], some [], some []⟩) :=
  ⟨Or.inr (Or.inl ⟨' ', rfl, by decide⟩),
    C10_amended_empty_token_matches_all "  ".toList
      ⟨some [⟨"b.md".toList, some "x".toList⟩], some [], some [], some []⟩
      (Or.inr (Or.inl ⟨' ', rfl, by decide⟩))⟩

end AwesomeCopilot
